import Mathlib

/-!
Verification of the Markdown → Atlassian Document Format (ADF) converter.

The converter exists in two near-duplicate variants in the repository:
the authoritative one supporting blockquotes (`markdownToAdf`, modelled
here by `goBlocksA` / `markdownToAdf`) and an older one without
blockquote support (modelled by `goBlocksB` / `markdownToAdfB`).

JavaScript strings are modelled as `List Char`.  The block scanner is
written with an explicit fuel parameter so that it is structurally
recursive (hence kernel-computable); `goA_isSome` proves that the fuel
chosen by `markdownToAdf` always suffices, which is exactly the
well-foundedness argument for the source's recursion into blockquote
content (the dedented quoted text is strictly shorter than the consumed
input).
-/

/-- JavaScript strings, modelled as lists of characters. -/
abbrev Str := List Char

/-- Convert a Lean string literal to the model type. -/
def str (s : String) : Str := s.data

/-- The JavaScript `\s` character class (WhiteSpace ∪ LineTerminator),
    also the set trimmed by `String.prototype.trim`/`trimEnd`. -/
def isJsWs (c : Char) : Bool :=
  c == ' ' || c == '\t' || c == '\n' || c == '\u000B' || c == '\u000C' ||
  c == '\r' || c == '\u00A0' || c == '\u1680' ||
  (decide (0x2000 ≤ c.toNat) && decide (c.toNat ≤ 0x200A)) ||
  c == '\u2028' || c == '\u2029' || c == '\u202F' || c == '\u205F' ||
  c == '\u3000' || c == '\uFEFF'

/-- JavaScript line terminators: the characters NOT matched by `.`
    (regexes in the source have no `s` flag). -/
def isLineTerm (c : Char) : Bool :=
  c == '\n' || c == '\r' || c == '\u2028' || c == '\u2029'

/-- A character matched by `.` in the source's regexes. -/
def dotChar (c : Char) : Bool := !(isLineTerm c)

/-- JavaScript `\w`: ASCII letters, digits and underscore. -/
def isWordChar (c : Char) : Bool := c.isAlphanum || c == '_'

/-- `String.prototype.trimEnd`: drop trailing whitespace. -/
def trimEnd : Str → Str
  | [] => []
  | c :: rest =>
    match trimEnd rest with
    | [] => if isJsWs c then [] else [c]
    | r => c :: r

/-- `String.prototype.trim`: drop whitespace at both ends. -/
def trimBoth (s : Str) : Str := (trimEnd s).dropWhile isJsWs

/-- `String.prototype.split` with a one-character separator.
    `split` on the empty string yields `[""]`, as in JavaScript. -/
def splitOnChar (sep : Char) : Str → List Str
  | [] => [[]]
  | c :: rest =>
    if c == sep then [] :: splitOnChar sep rest
    else
      match splitOnChar sep rest with
      | [] => [[c]]
      | l :: ls => (c :: l) :: ls

/-- `markdown.split("\n")`. -/
def splitOnNl (s : Str) : List Str := splitOnChar '\n' s

/-- `Array.prototype.join` with a one-character separator. -/
def joinSep (sep : Char) : List Str → Str
  | [] => []
  | [l] => l
  | l :: l2 :: rest => l ++ sep :: joinSep sep (l2 :: rest)

/-- `lines.join("\n")`. -/
def joinNl (ls : List Str) : Str := joinSep '\n' ls

/-- Decidable string-prefix test (JavaScript `startsWith`). -/
def hasPfx : Str → Str → Bool
  | [], _ => true
  | _ :: _, [] => false
  | p :: ps, c :: cs => p == c && hasPfx ps cs

-- ---------------------------------------------------------------------------
-- ADF output tree (the subset the converter produces)
-- ---------------------------------------------------------------------------

/-- A formatting mark on a text node. -/
inductive Mark where
  | strong
  | em
  | code
  | link (href : Str)
deriving Repr

/-- An inline ADF node.  Plain text nodes carry `marks = []`
    (the source omits the `marks` field altogether in that case). -/
inductive Inline where
  | text (s : Str) (marks : List Mark)
  | mention (id : Str) (display : Str) (accessLevel : Str)
deriving Repr

/-- A block-level ADF node.  A table row is a list of cells; a cell is a
    pair of its header flag (`tableHeader` vs `tableCell`) and its content
    (always a single paragraph in the source). -/
inductive Block where
  | heading (level : Nat) (content : List Inline)
  | paragraph (content : List Inline)
  | bulletList (items : List (List Block))
  | orderedList (items : List (List Block))
  | codeBlock (language : Option Str) (content : List Inline)
  | rule
  | blockquote (content : List Block)
  | table (rows : List (List (Bool × List Block)))
deriving Repr

/-- The ADF document envelope `{version: 1, type: "doc", content}`. -/
structure AdfDoc where
  version : Nat
  content : List Block
deriving Repr

-- ---------------------------------------------------------------------------
-- Inline parser (the big regex alternation of `parseInline`)
-- ---------------------------------------------------------------------------

/-- Backtracking helper for the non-greedy `X(.+?)XX…` patterns closed by a
    doubled delimiter: finds the shortest non-empty run of `.`-matchable
    characters followed by `[delim, delim]`. -/
def closeDouble (delim : Char) : Str → Str → Option (Str × Str)
  | _, [] => none
  | acc, c :: rest =>
    if dotChar c then
      if hasPfx [delim, delim] rest then some (acc ++ [c], rest.drop 2)
      else closeDouble delim (acc ++ [c]) rest
    else none

/-- As `closeDouble`, for a single-character closing delimiter. -/
def closeSingle (delim : Char) : Str → Str → Option (Str × Str)
  | _, [] => none
  | acc, c :: rest =>
    if dotChar c then
      if hasPfx [delim] rest then some (acc ++ [c], rest.drop 1)
      else closeSingle delim (acc ++ [c]) rest
    else none

/-- Alternative 1 of the inline regex: `\*\*(.+?)\*\*` (bold). -/
def matchBold (s : Str) : Option (Inline × Str) :=
  if hasPfx ['*', '*'] s then
    match closeDouble '*' [] (s.drop 2) with
    | some (content, after) => some (Inline.text content [Mark.strong], after)
    | none => none
  else none

/-- Alternative 2: `\*(.+?)\*` (italic, asterisk form). -/
def matchStar (s : Str) : Option (Inline × Str) :=
  if hasPfx ['*'] s then
    match closeSingle '*' [] (s.drop 1) with
    | some (content, after) => some (Inline.text content [Mark.em], after)
    | none => none
  else none

/-- Alternative 3: `_(.+?)_` (italic, underscore form). -/
def matchUnder (s : Str) : Option (Inline × Str) :=
  if hasPfx ['_'] s then
    match closeSingle '_' [] (s.drop 1) with
    | some (content, after) => some (Inline.text content [Mark.em], after)
    | none => none
  else none

/-- Alternative 4: `` `([^`]+)` `` (code span, greedy negated class). -/
def matchCode (s : Str) : Option (Inline × Str) :=
  if hasPfx ['`'] s then
    let rest := s.drop 1
    let content := rest.takeWhile (fun c => !(c == '`'))
    let after := rest.dropWhile (fun c => !(c == '`'))
    if content.isEmpty then none
    else if hasPfx ['`'] after then
      some (Inline.text content [Mark.code], after.drop 1)
    else none
  else none

/-- Alternative 5: `\[([^\]]+)\]\(([^)]+)\)` (link). -/
def matchLink (s : Str) : Option (Inline × Str) :=
  if hasPfx ['['] s then
    let rest := s.drop 1
    let label := rest.takeWhile (fun c => !(c == ']'))
    let afterL := rest.dropWhile (fun c => !(c == ']'))
    if label.isEmpty then none
    else if hasPfx [']', '('] afterL then
      let rest2 := afterL.drop 2
      let url := rest2.takeWhile (fun c => !(c == ')'))
      let afterU := rest2.dropWhile (fun c => !(c == ')'))
      if url.isEmpty then none
      else if hasPfx [')'] afterU then
        some (Inline.text label [Mark.link url], afterU.drop 1)
      else none
    else none
  else none

/-- The ID character class of the mention token: `[a-zA-Z0-9:_-]`. -/
def mentionChar (c : Char) : Bool :=
  c.isAlphanum || c == ':' || c == '_' || c == '-'

/-- Alternative 6: `@accountId:([a-zA-Z0-9:_-]+)` (mention). -/
def matchMention (s : Str) : Option (Inline × Str) :=
  let pfx := str "@accountId:"
  if hasPfx pfx s then
    let rest := s.drop pfx.length
    let idc := rest.takeWhile mentionChar
    if idc.isEmpty then none
    else some (Inline.mention idc ('@' :: idc) [], rest.dropWhile mentionChar)
  else none

/-- One attempt of the whole alternation at the current scan position,
    in the source's capture-group order (bold before italic, etc.). -/
def tryInline (s : Str) : Option (Inline × Str) :=
  match matchBold s with
  | some r => some r
  | none =>
    match matchStar s with
    | some r => some r
    | none =>
      match matchUnder s with
      | some r => some r
      | none =>
        match matchCode s with
        | some r => some r
        | none =>
          match matchLink s with
          | some r => some r
          | none => matchMention s

/-- Emit the pending plain-text run, if non-empty. -/
def flushText (acc : Str) : List Inline :=
  if acc.isEmpty then [] else [Inline.text acc []]

/-- The left-to-right scan of `parseInline`.  Each step either consumes a
    whole inline match or moves one character into the pending plain-text
    run, so `fuel = text.length + 1` always suffices. -/
def parseInlineGo : Nat → Str → Str → List Inline
  | 0, _, acc => flushText acc
  | _ + 1, [], acc => flushText acc
  | fuel + 1, c :: rest, acc =>
    match tryInline (c :: rest) with
    | some (node, after) => flushText acc ++ node :: parseInlineGo fuel after []
    | none => parseInlineGo fuel rest (acc ++ [c])

/-- `parseInline`: parse inline markdown into ADF inline nodes.  A run with
    no node produces a single empty text node. -/
def parseInline (text : Str) : List Inline :=
  let nodes := parseInlineGo (text.length + 1) text []
  if nodes.isEmpty then [Inline.text [] []] else nodes

-- ---------------------------------------------------------------------------
-- Table sub-parser (`parseTableBlock`)
-- ---------------------------------------------------------------------------

/-- The character class of a table separator row: `[\s\-:|]`. -/
def sepClass (c : Char) : Bool := isJsWs c || c == '-' || c == ':' || c == '|'

/-- The separator-row pattern `^\|[\s\-:|]+\|$`. -/
def sepTest (s : Str) : Bool :=
  match s with
  | c :: rest =>
    c == '|' && !rest.dropLast.isEmpty && (rest.getLast? == some '|') &&
      rest.dropLast.all sepClass
  | [] => false

/-- The table-line pattern `^\|.+\|` (unanchored at the end). -/
def pipeTest (s : Str) : Bool :=
  match s with
  | c :: rest => c == '|' && ((rest.takeWhile dotChar).drop 1).contains '|'
  | [] => false

/-- Strip the outer pipes of a (trimmed) table line, split on `|` and trim
    each resulting cell text. -/
def tableCells (l : Str) : List Str :=
  let t := trimBoth l
  let t1 := match t with | '|' :: r => r | _ => t
  let t2 :=
    match t1.getLast? with
    | some c => if c == '|' then t1.dropLast else t1
    | none => t1
  (splitOnChar '|' t2).map trimBoth

/-- Build one table row from a line: each cell is (header?, one paragraph). -/
def rowCells (hdr : Bool) (l : Str) : List (Bool × List Block) :=
  (tableCells l).map (fun c => (hdr, [Block.paragraph (parseInline c)]))

/-- The row loop of `parseTableBlock`: separator rows are dropped, the row
    at line index 0 is tagged as header. -/
def tableRows : Nat → List Str → List (List (Bool × List Block))
  | _, [] => []
  | i, l :: rest =>
    if sepTest (trimBoth l) then tableRows (i + 1) rest
    else rowCells (i == 0) l :: tableRows (i + 1) rest

/-- `parseTableBlock`. -/
def parseTableBlock (lines : List Str) : Block :=
  Block.table (tableRows 0 lines)

-- ---------------------------------------------------------------------------
-- Block-level line tests
-- ---------------------------------------------------------------------------

/-- The three-backtick fence marker. -/
def fence3 : Str := ['`', '`', '`']

/-- The fenced-code opening pattern `^```(\w*)$`, returning the language
    capture group. -/
def codeFenceMatch (s : Str) : Option Str :=
  if hasPfx fence3 s && (s.drop 3).all isWordChar then some (s.drop 3) else none

/-- The horizontal-rule pattern `^(\*{3,}|-{3,}|_{3,})\s*$`: a maximal run
    of at least three of one rule character, followed only by whitespace. -/
def isHRule (s : Str) : Bool :=
  match s with
  | [] => false
  | c :: _ =>
    if c == '*' || c == '-' || c == '_' then
      decide (3 ≤ (s.takeWhile (fun x => x == c)).length) &&
        (s.dropWhile (fun x => x == c)).all isJsWs
    else false

/-- The heading pattern `^(#{1,6})\s+(.+)$`, on right-trimmed input (the
    only way the source invokes it), returning level and heading text. -/
def headingMatch (s : Str) : Option (Nat × Str) :=
  let hs := s.takeWhile (fun c => c == '#')
  if hs.isEmpty then none
  else if decide (hs.length ≤ 6) then
    let rest := s.dropWhile (fun c => c == '#')
    let ws := rest.takeWhile isJsWs
    let content := rest.dropWhile isJsWs
    if !ws.isEmpty && !content.isEmpty && content.all dotChar then
      some (hs.length, content)
    else none
  else none

/-- The blockquote test `^>\s?` (as a test, equivalent to starting with `>`). -/
def quoteTest (s : Str) : Bool :=
  match s with
  | c :: _ => c == '>'
  | [] => false

/-- `line.replace(/^>\s?/, "")`: drop the marker and one optional space. -/
def stripQuote (line : Str) : Str :=
  match line with
  | c :: rest =>
    if c == '>' then
      match rest with
      | d :: tail => if isJsWs d then tail else d :: tail
      | [] => []
    else line
  | [] => line

/-- The bullet-list test/strip `^[\s]*[-*+•]\s+` of the blockquote-supporting
    variant; returns the item text (the line minus the matched prefix). -/
def bulletMatchA (line : Str) : Option Str :=
  match line.dropWhile isJsWs with
  | c :: rest =>
    if c == '-' || c == '*' || c == '+' || c == '•' then
      match rest with
      | d :: tail => if isJsWs d then some (tail.dropWhile isJsWs) else none
      | [] => none
    else none
  | [] => none

/-- The bullet-list test/strip `^[\s]*[-*+]\s+` of the variant without
    blockquote support (no `•` marker). -/
def bulletMatchB (line : Str) : Option Str :=
  match line.dropWhile isJsWs with
  | c :: rest =>
    if c == '-' || c == '*' || c == '+' then
      match rest with
      | d :: tail => if isJsWs d then some (tail.dropWhile isJsWs) else none
      | [] => none
    else none
  | [] => none

/-- The ordered-list test/strip `^[\s]*\d+\.\s+`. -/
def orderedMatch (line : Str) : Option Str :=
  let r := line.dropWhile isJsWs
  let ds := r.takeWhile Char.isDigit
  if ds.isEmpty then none
  else
    match r.dropWhile Char.isDigit with
    | '.' :: rest =>
      match rest with
      | d :: tail => if isJsWs d then some (tail.dropWhile isJsWs) else none
      | [] => none
    | _ => none

-- ---------------------------------------------------------------------------
-- Block segmenter
-- ---------------------------------------------------------------------------

/-- `flushParagraph`: join the pending paragraph lines; discard the buffer
    when empty or all-whitespace, otherwise emit one paragraph. -/
def flushPara (buf : List Str) : List Block :=
  match buf with
  | [] => []
  | _ =>
    let text := joinNl buf
    if (trimBoth text).isEmpty then []
    else [Block.paragraph (parseInline text)]

/-- The document-level non-empty guard: an empty block sequence becomes a
    single paragraph holding one empty text node. -/
def docContent (bs : List Block) : List Block :=
  if bs.isEmpty then [Block.paragraph [Inline.text [] []]] else bs

/-- The line loop of the blockquote-supporting `markdownToAdf`
    (`src/unnamed/part_003`).  `fuel` only makes the recursion structural;
    `goA_isSome` shows the fuel chosen by `markdownToAdf` never runs out. -/
def goBlocksA : Nat → List Str → List Str → Option (List Block)
  | 0, _, _ => none
  | _ + 1, [], buf => some (flushPara buf)
  | fuel + 1, line :: rest, buf =>
    let trimmed := trimEnd line
    match codeFenceMatch trimmed with
    | some lang =>
      let body := rest.takeWhile (fun l => !(hasPfx fence3 (trimEnd l)))
      let after := (rest.dropWhile (fun l => !(hasPfx fence3 (trimEnd l)))).drop 1
      (goBlocksA fuel after []).map (fun bs =>
        flushPara buf ++
          [Block.codeBlock (if lang.isEmpty then none else some lang)
            [Inline.text (joinNl body) []]] ++ bs)
    | none =>
      if isHRule trimmed then
        (goBlocksA fuel rest []).map (fun bs => flushPara buf ++ [Block.rule] ++ bs)
      else
        match headingMatch trimmed with
        | some (lvl, content) =>
          (goBlocksA fuel rest []).map (fun bs =>
            flushPara buf ++ [Block.heading (min lvl 6) (parseInline content)] ++ bs)
        | none =>
          if quoteTest trimmed then
            let qls := (line :: rest).takeWhile (fun l => quoteTest (trimEnd l))
            let after := (line :: rest).dropWhile (fun l => quoteTest (trimEnd l))
            let inner := joinNl (qls.map stripQuote)
            match goBlocksA fuel (splitOnNl inner) [], goBlocksA fuel after [] with
            | some ibs, some bs =>
              some (flushPara buf ++ [Block.blockquote (docContent ibs)] ++ bs)
            | _, _ => none
          else
            if pipeTest trimmed && sepTest (trimBoth (rest.headD [])) then
              let run := (line :: rest).takeWhile (fun l => pipeTest (trimEnd l))
              let after := (line :: rest).dropWhile (fun l => pipeTest (trimEnd l))
              (goBlocksA fuel after []).map (fun bs =>
                flushPara buf ++ [parseTableBlock run] ++ bs)
            else
              match bulletMatchA line with
              | some _ =>
                let run := (line :: rest).takeWhile (fun l => (bulletMatchA l).isSome)
                let after := (line :: rest).dropWhile (fun l => (bulletMatchA l).isSome)
                let items := run.map (fun l =>
                  [Block.paragraph (parseInline ((bulletMatchA l).getD []))])
                (goBlocksA fuel after []).map (fun bs =>
                  flushPara buf ++ [Block.bulletList items] ++ bs)
              | none =>
                match orderedMatch line with
                | some _ =>
                  let run := (line :: rest).takeWhile (fun l => (orderedMatch l).isSome)
                  let after := (line :: rest).dropWhile (fun l => (orderedMatch l).isSome)
                  let items := run.map (fun l =>
                    [Block.paragraph (parseInline ((orderedMatch l).getD []))])
                  (goBlocksA fuel after []).map (fun bs =>
                    flushPara buf ++ [Block.orderedList items] ++ bs)
                | none =>
                  if trimmed.isEmpty then
                    (goBlocksA fuel rest []).map (fun bs => flushPara buf ++ bs)
                  else
                    goBlocksA fuel rest (buf ++ [trimmed])

/-- The line loop of the `markdownToAdf` variant without blockquote support
    (`src/unnamed/part_001`): no blockquote branch, a table needs no
    separator row, and `•` is not a bullet marker. -/
def goBlocksB : Nat → List Str → List Str → Option (List Block)
  | 0, _, _ => none
  | _ + 1, [], buf => some (flushPara buf)
  | fuel + 1, line :: rest, buf =>
    let trimmed := trimEnd line
    match codeFenceMatch trimmed with
    | some lang =>
      let body := rest.takeWhile (fun l => !(hasPfx fence3 (trimEnd l)))
      let after := (rest.dropWhile (fun l => !(hasPfx fence3 (trimEnd l)))).drop 1
      (goBlocksB fuel after []).map (fun bs =>
        flushPara buf ++
          [Block.codeBlock (if lang.isEmpty then none else some lang)
            [Inline.text (joinNl body) []]] ++ bs)
    | none =>
      if isHRule trimmed then
        (goBlocksB fuel rest []).map (fun bs => flushPara buf ++ [Block.rule] ++ bs)
      else
        match headingMatch trimmed with
        | some (lvl, content) =>
          (goBlocksB fuel rest []).map (fun bs =>
            flushPara buf ++ [Block.heading (min lvl 6) (parseInline content)] ++ bs)
        | none =>
          if pipeTest trimmed then
            let run := (line :: rest).takeWhile (fun l => pipeTest (trimEnd l))
            let after := (line :: rest).dropWhile (fun l => pipeTest (trimEnd l))
            (goBlocksB fuel after []).map (fun bs =>
              flushPara buf ++ [parseTableBlock run] ++ bs)
          else
            match bulletMatchB line with
            | some _ =>
              let run := (line :: rest).takeWhile (fun l => (bulletMatchB l).isSome)
              let after := (line :: rest).dropWhile (fun l => (bulletMatchB l).isSome)
              let items := run.map (fun l =>
                [Block.paragraph (parseInline ((bulletMatchB l).getD []))])
              (goBlocksB fuel after []).map (fun bs =>
                flushPara buf ++ [Block.bulletList items] ++ bs)
            | none =>
              match orderedMatch line with
              | some _ =>
                let run := (line :: rest).takeWhile (fun l => (orderedMatch l).isSome)
                let after := (line :: rest).dropWhile (fun l => (orderedMatch l).isSome)
                let items := run.map (fun l =>
                  [Block.paragraph (parseInline ((orderedMatch l).getD []))])
                (goBlocksB fuel after []).map (fun bs =>
                  flushPara buf ++ [Block.orderedList items] ++ bs)
              | none =>
                if trimmed.isEmpty then
                  (goBlocksB fuel rest []).map (fun bs => flushPara buf ++ bs)
                else
                  goBlocksB fuel rest (buf ++ [trimmed])

/-- Fuel sufficient to process a line list: every loop iteration consumes at
    least one line, and the blockquote recursion strictly shrinks this
    measure (each quote line loses its `>` marker). -/
def linesFuel (ls : List Str) : Nat :=
  ls.foldr (fun l acc => l.length + 2 + acc) 1

/-- The blockquote-supporting `markdownToAdf`, as a fuel-based computation
    returning `none` on fuel exhaustion (`goA_isSome`: never happens). -/
def markdownToAdfOpt (md : Str) : Option AdfDoc :=
  (goBlocksA (linesFuel (splitOnNl md)) (splitOnNl md) []).map
    (fun bs => ⟨1, docContent bs⟩)

/-- The blockquote-supporting `markdownToAdf` (src/unnamed/part_003), total:
    the `getD` default is unreachable by `goA_isSome`. -/
def markdownToAdf (md : Str) : AdfDoc :=
  ⟨1, docContent ((goBlocksA (linesFuel (splitOnNl md)) (splitOnNl md) []).getD [])⟩

/-- The `markdownToAdf` variant without blockquote support
    (src/unnamed/part_001), total in the same way. -/
def markdownToAdfB (md : Str) : AdfDoc :=
  ⟨1, docContent ((goBlocksB (linesFuel (splitOnNl md)) (splitOnNl md) []).getD [])⟩

/-- No pipe-delimited line without an immediately following separator row
    (the successor of the last line counts as the empty string); under this
    condition the two converter variants take the same table decisions. -/
def noBareTable : List Str → Bool
  | [] => true
  | l :: rest =>
    (!pipeTest (trimEnd l) || sepTest (trimBoth (rest.headD []))) &&
      noBareTable rest

/-- A nested-blockquote input: `n` quote markers followed by the letter x. -/
def qn (n : Nat) : Str := List.replicate n '>' ++ ['x']

-- ---------------------------------------------------------------------------
-- Basic lemmas about the string primitives
-- ---------------------------------------------------------------------------

theorem linesFuel_cons (l : Str) (ls : List Str) :
    linesFuel (l :: ls) = l.length + 2 + linesFuel ls := rfl

theorem linesFuel_pos (ls : List Str) : 1 ≤ linesFuel ls := by
  induction ls with
  | nil => exact le_refl 1
  | cons l ls ih => rw [linesFuel_cons]; omega

theorem linesFuel_le_of_sublist {s t : List Str} (h : s.Sublist t) :
    linesFuel s ≤ linesFuel t := by
  induction h with
  | slnil => exact le_refl _
  | cons l _ ih => rw [linesFuel_cons]; omega
  | cons₂ l _ ih => rw [linesFuel_cons, linesFuel_cons]; omega

theorem splitOnChar_ne_nil (sep : Char) (s : Str) : splitOnChar sep s ≠ [] := by
  induction s with
  | nil => simp [splitOnChar]
  | cons c rest ih =>
    rw [splitOnChar]
    by_cases h : c = sep
    · simp [h]
    · simp only [beq_iff_eq, h, if_false]
      rcases hr : splitOnChar sep rest with _ | ⟨l, ls⟩
      · exact absurd hr ih
      · simp

theorem splitOnChar_cons_head (sep c : Char) (rest : Str) (h : ¬ c = sep) :
    ∃ l0 ls, splitOnChar sep rest = l0 :: ls ∧
      splitOnChar sep (c :: rest) = (c :: l0) :: ls := by
  rcases hr : splitOnChar sep rest with _ | ⟨l0, ls⟩
  · exact absurd hr (splitOnChar_ne_nil sep rest)
  · refine ⟨l0, ls, rfl, ?_⟩
    rw [splitOnChar]
    simp only [beq_iff_eq, h, if_false, hr]

theorem splitOnChar_not_mem (sep : Char) (s : Str) :
    ∀ l ∈ splitOnChar sep s, sep ∉ l := by
  induction s with
  | nil => intro l hl; simp [splitOnChar] at hl; simp [hl]
  | cons c rest ih =>
    intro l hl
    by_cases h : c = sep
    · subst h
      rw [splitOnChar] at hl
      simp only [beq_self_eq_true, if_true, List.mem_cons] at hl
      rcases hl with rfl | hl
      · simp
      · exact ih l hl
    · obtain ⟨l0, ls, hr, hcons⟩ := splitOnChar_cons_head sep c rest h
      rw [hcons, List.mem_cons] at hl
      rcases hl with rfl | hl
      · intro hmem
        rcases List.mem_cons.mp hmem with rfl | hmem
        · exact h rfl
        · exact ih l0 (hr ▸ List.mem_cons_self l0 ls) hmem
      · exact ih l (hr ▸ List.mem_cons_of_mem l0 hl)

theorem splitOnChar_chars_mem (sep : Char) (s : Str) :
    ∀ l ∈ splitOnChar sep s, ∀ c ∈ l, c ∈ s := by
  induction s with
  | nil => intro l hl; simp [splitOnChar] at hl; simp [hl]
  | cons a rest ih =>
    intro l hl c hc
    by_cases h : a = sep
    · subst h
      rw [splitOnChar] at hl
      simp only [beq_self_eq_true, if_true, List.mem_cons] at hl
      rcases hl with rfl | hl
      · simp at hc
      · exact List.mem_cons_of_mem a (ih l hl c hc)
    · obtain ⟨l0, ls, hr, hcons⟩ := splitOnChar_cons_head sep a rest h
      rw [hcons, List.mem_cons] at hl
      rcases hl with rfl | hl
      · rcases List.mem_cons.mp hc with rfl | hc
        · exact List.mem_cons_self c rest
        · exact List.mem_cons_of_mem a
            (ih l0 (hr ▸ List.mem_cons_self l0 ls) c hc)
      · exact List.mem_cons_of_mem a
          (ih l (hr ▸ List.mem_cons_of_mem l0 hl) c hc)

theorem splitOnChar_of_not_mem {sep : Char} {s : Str} (h : sep ∉ s) :
    splitOnChar sep s = [s] := by
  induction s with
  | nil => rfl
  | cons c rest ih =>
    have hc : ¬ c = sep := fun hh => h (hh ▸ List.mem_cons_self c rest)
    have hrest : sep ∉ rest := fun hm => h (List.mem_cons_of_mem c hm)
    obtain ⟨l0, ls, hr, hcons⟩ := splitOnChar_cons_head sep c rest hc
    rw [hcons]
    rw [ih hrest] at hr
    cases hr
    rfl

theorem splitOnChar_append {sep : Char} {a : Str} (b : Str) (h : sep ∉ a) :
    splitOnChar sep (a ++ sep :: b) = a :: splitOnChar sep b := by
  induction a with
  | nil =>
    rw [List.nil_append, splitOnChar]
    simp
  | cons c rest ih =>
    have hc : ¬ c = sep := fun hh => h (hh ▸ List.mem_cons_self c rest)
    have hrest : sep ∉ rest := fun hm => h (List.mem_cons_of_mem c hm)
    rw [List.cons_append]
    obtain ⟨l0, ls, hr, hcons⟩ := splitOnChar_cons_head sep c (rest ++ sep :: b) hc
    rw [hcons]
    rw [ih hrest] at hr
    cases hr
    rfl

theorem splitOnNl_join (ls : List Str) (h0 : ls ≠ [])
    (h : ∀ l ∈ ls, ('\n' : Char) ∉ l) : splitOnNl (joinNl ls) = ls := by
  rw [splitOnNl, joinNl]
  induction ls with
  | nil => exact absurd rfl h0
  | cons l rest ih =>
    rcases rest with _ | ⟨l2, rest2⟩
    · exact splitOnChar_of_not_mem (h l (List.mem_cons_self l []))
    · rw [joinSep, splitOnChar_append _ (h l (List.mem_cons_self l _))]
      rw [ih (by simp) (fun x hx => h x (List.mem_cons_of_mem l hx))]

theorem splitOnNl_of_not_mem {s : Str} (h : ('\n' : Char) ∉ s) :
    splitOnNl s = [s] := splitOnChar_of_not_mem h

theorem trimEnd_eq_cons {l t : Str} {c : Char} (h : trimEnd l = c :: t) :
    ∃ r, l = c :: r := by
  rcases l with _ | ⟨d, r⟩
  · simp [trimEnd] at h
  · refine ⟨r, ?_⟩
    rw [trimEnd] at h
    rcases htr : trimEnd r with _ | ⟨e, s⟩ <;> rw [htr] at h
    · by_cases hw : (isJsWs d) = true
      · simp [hw] at h
      · simp only [hw, if_false] at h
        cases h; rfl
    · cases h; rfl

theorem trimEnd_of_allWs {l : Str} (h : ∀ x ∈ l, isJsWs x = true) :
    trimEnd l = [] := by
  induction l with
  | nil => rfl
  | cons c rest ih =>
    rw [trimEnd, ih (fun x hx => h x (List.mem_cons_of_mem c hx))]
    simp [h c (List.mem_cons_self c rest)]

theorem trimEnd_append_ws {w : Str} (a : Str) (h : ∀ x ∈ w, isJsWs x = true) :
    trimEnd (a ++ w) = trimEnd a := by
  induction a with
  | nil =>
    rw [List.nil_append, trimEnd_of_allWs h]; rfl
  | cons c rest ih =>
    rw [List.cons_append, trimEnd, ih, trimEnd]

theorem stripQuote_subset {l : Str} : ∀ x ∈ stripQuote l, x ∈ l := by
  intro x hx
  rcases l with _ | ⟨c, r⟩
  · exact hx
  · rw [stripQuote.eq_def] at hx
    by_cases hc : c = '>'
    · simp only [beq_iff_eq, hc, if_true] at hx
      rcases r with _ | ⟨d, tail⟩
      · simp at hx
      · by_cases hw : (isJsWs d) = true
        · simp only [hw, if_true] at hx
          exact List.mem_cons_of_mem _ (List.mem_cons_of_mem d hx)
        · simp only [hw, if_false] at hx
          exact List.mem_cons_of_mem _ hx
    · simp only [beq_iff_eq, hc, if_false] at hx
      exact hx

theorem stripQuote_length {l : Str} (h : quoteTest (trimEnd l) = true) :
    (stripQuote l).length + 1 ≤ l.length := by
  rcases htr : trimEnd l with _ | ⟨c, t⟩
  · rw [htr] at h; simp [quoteTest] at h
  · rw [htr] at h
    rw [quoteTest] at h
    have hc : c = '>' := by simpa using h
    subst hc
    obtain ⟨r, hr⟩ := trimEnd_eq_cons htr
    subst hr
    rw [stripQuote.eq_def]
    simp only [beq_self_eq_true, if_true]
    rcases r with _ | ⟨d, tail⟩
    · simp
    · dsimp only
      by_cases hw : (isJsWs d) = true
      · rw [if_pos hw]; simp only [List.length_cons]; omega
      · rw [if_neg hw]; simp only [List.length_cons]; omega

theorem docContent_ne_nil (bs : List Block) : docContent bs ≠ [] := by
  rw [docContent]
  by_cases h : bs.isEmpty = true
  · simp [h]
  · simp only [h, if_false]
    rcases bs with _ | _
    · simp at h
    · simp
-- ---------------------------------------------------------------------------
-- Branch-unfold equations for the block scanners
-- ---------------------------------------------------------------------------

theorem goA_nil (f : Nat) (buf : List Str) :
    goBlocksA (f + 1) [] buf = some (flushPara buf) := rfl

theorem goA_fence (f : Nat) (line : Str) (rest buf : List Str) {lang : Str}
    (hc : codeFenceMatch (trimEnd line) = some lang) :
    goBlocksA (f + 1) (line :: rest) buf =
      (goBlocksA f ((rest.dropWhile (fun l => !(hasPfx fence3 (trimEnd l)))).drop 1) []).map
        (fun bs => flushPara buf ++
          [Block.codeBlock (if lang.isEmpty then none else some lang)
            [Inline.text (joinNl (rest.takeWhile (fun l => !(hasPfx fence3 (trimEnd l))))) []]]
          ++ bs) := by
  simp only [goBlocksA, hc]

theorem goA_hrule (f : Nat) (line : Str) (rest buf : List Str)
    (hc : codeFenceMatch (trimEnd line) = none)
    (hh : isHRule (trimEnd line) = true) :
    goBlocksA (f + 1) (line :: rest) buf =
      (goBlocksA f rest []).map (fun bs => flushPara buf ++ [Block.rule] ++ bs) := by
  simp only [goBlocksA, hc, hh, if_true]

theorem goA_heading (f : Nat) (line : Str) (rest buf : List Str) {lvl : Nat} {content : Str}
    (hc : codeFenceMatch (trimEnd line) = none)
    (hh : isHRule (trimEnd line) = false)
    (hd : headingMatch (trimEnd line) = some (lvl, content)) :
    goBlocksA (f + 1) (line :: rest) buf =
      (goBlocksA f rest []).map (fun bs =>
        flushPara buf ++ [Block.heading (min lvl 6) (parseInline content)] ++ bs) := by
  simp only [goBlocksA, hc, hh, hd, Bool.false_eq_true, if_false]

theorem goA_quote (f : Nat) (line : Str) (rest buf : List Str)
    (hc : codeFenceMatch (trimEnd line) = none)
    (hh : isHRule (trimEnd line) = false)
    (hd : headingMatch (trimEnd line) = none)
    (hq : quoteTest (trimEnd line) = true) :
    goBlocksA (f + 1) (line :: rest) buf =
      (match goBlocksA f (splitOnNl (joinNl
          ((((line :: rest).takeWhile (fun l => quoteTest (trimEnd l))).map stripQuote)))) [],
        goBlocksA f ((line :: rest).dropWhile (fun l => quoteTest (trimEnd l))) [] with
       | some ibs, some bs =>
         some (flushPara buf ++ [Block.blockquote (docContent ibs)] ++ bs)
       | _, _ => none) := by
  simp only [goBlocksA, hc, hh, hd, hq, Bool.false_eq_true, if_false, if_true]

theorem goA_table (f : Nat) (line : Str) (rest buf : List Str)
    (hc : codeFenceMatch (trimEnd line) = none)
    (hh : isHRule (trimEnd line) = false)
    (hd : headingMatch (trimEnd line) = none)
    (hq : quoteTest (trimEnd line) = false)
    (ht : (pipeTest (trimEnd line) && sepTest (trimBoth (rest.headD []))) = true) :
    goBlocksA (f + 1) (line :: rest) buf =
      (goBlocksA f ((line :: rest).dropWhile (fun l => pipeTest (trimEnd l))) []).map
        (fun bs => flushPara buf ++
          [parseTableBlock ((line :: rest).takeWhile (fun l => pipeTest (trimEnd l)))] ++ bs) := by
  simp only [goBlocksA, hc, hh, hd, hq, ht, Bool.false_eq_true, if_false, if_true]

theorem goA_bullet (f : Nat) (line : Str) (rest buf : List Str) {t : Str}
    (hc : codeFenceMatch (trimEnd line) = none)
    (hh : isHRule (trimEnd line) = false)
    (hd : headingMatch (trimEnd line) = none)
    (hq : quoteTest (trimEnd line) = false)
    (ht : (pipeTest (trimEnd line) && sepTest (trimBoth (rest.headD []))) = false)
    (hb : bulletMatchA line = some t) :
    goBlocksA (f + 1) (line :: rest) buf =
      (goBlocksA f ((line :: rest).dropWhile (fun l => (bulletMatchA l).isSome)) []).map
        (fun bs => flushPara buf ++
          [Block.bulletList (((line :: rest).takeWhile (fun l => (bulletMatchA l).isSome)).map
            (fun l => [Block.paragraph (parseInline ((bulletMatchA l).getD []))]))] ++ bs) := by
  simp only [goBlocksA, hc, hh, hd, hq, ht, hb, Bool.false_eq_true, if_false]

theorem goA_ordered (f : Nat) (line : Str) (rest buf : List Str) {t : Str}
    (hc : codeFenceMatch (trimEnd line) = none)
    (hh : isHRule (trimEnd line) = false)
    (hd : headingMatch (trimEnd line) = none)
    (hq : quoteTest (trimEnd line) = false)
    (ht : (pipeTest (trimEnd line) && sepTest (trimBoth (rest.headD []))) = false)
    (hb : bulletMatchA line = none)
    (ho : orderedMatch line = some t) :
    goBlocksA (f + 1) (line :: rest) buf =
      (goBlocksA f ((line :: rest).dropWhile (fun l => (orderedMatch l).isSome)) []).map
        (fun bs => flushPara buf ++
          [Block.orderedList (((line :: rest).takeWhile (fun l => (orderedMatch l).isSome)).map
            (fun l => [Block.paragraph (parseInline ((orderedMatch l).getD []))]))] ++ bs) := by
  simp only [goBlocksA, hc, hh, hd, hq, ht, hb, ho, Bool.false_eq_true, if_false]

theorem goA_blank (f : Nat) (line : Str) (rest buf : List Str)
    (hc : codeFenceMatch (trimEnd line) = none)
    (hh : isHRule (trimEnd line) = false)
    (hd : headingMatch (trimEnd line) = none)
    (hq : quoteTest (trimEnd line) = false)
    (ht : (pipeTest (trimEnd line) && sepTest (trimBoth (rest.headD []))) = false)
    (hb : bulletMatchA line = none)
    (ho : orderedMatch line = none)
    (hbl : (trimEnd line).isEmpty = true) :
    goBlocksA (f + 1) (line :: rest) buf =
      (goBlocksA f rest []).map (fun bs => flushPara buf ++ bs) := by
  simp only [goBlocksA, hc, hh, hd, hq, ht, hb, ho, hbl, Bool.false_eq_true, if_false, if_true]

theorem goA_para (f : Nat) (line : Str) (rest buf : List Str)
    (hc : codeFenceMatch (trimEnd line) = none)
    (hh : isHRule (trimEnd line) = false)
    (hd : headingMatch (trimEnd line) = none)
    (hq : quoteTest (trimEnd line) = false)
    (ht : (pipeTest (trimEnd line) && sepTest (trimBoth (rest.headD []))) = false)
    (hb : bulletMatchA line = none)
    (ho : orderedMatch line = none)
    (hbl : (trimEnd line).isEmpty = false) :
    goBlocksA (f + 1) (line :: rest) buf =
      goBlocksA f rest (buf ++ [trimEnd line]) := by
  simp only [goBlocksA, hc, hh, hd, hq, ht, hb, ho, hbl, Bool.false_eq_true, if_false]

theorem goB_nil (f : Nat) (buf : List Str) :
    goBlocksB (f + 1) [] buf = some (flushPara buf) := rfl

theorem goB_fence (f : Nat) (line : Str) (rest buf : List Str) {lang : Str}
    (hc : codeFenceMatch (trimEnd line) = some lang) :
    goBlocksB (f + 1) (line :: rest) buf =
      (goBlocksB f ((rest.dropWhile (fun l => !(hasPfx fence3 (trimEnd l)))).drop 1) []).map
        (fun bs => flushPara buf ++
          [Block.codeBlock (if lang.isEmpty then none else some lang)
            [Inline.text (joinNl (rest.takeWhile (fun l => !(hasPfx fence3 (trimEnd l))))) []]]
          ++ bs) := by
  simp only [goBlocksB, hc]

theorem goB_hrule (f : Nat) (line : Str) (rest buf : List Str)
    (hc : codeFenceMatch (trimEnd line) = none)
    (hh : isHRule (trimEnd line) = true) :
    goBlocksB (f + 1) (line :: rest) buf =
      (goBlocksB f rest []).map (fun bs => flushPara buf ++ [Block.rule] ++ bs) := by
  simp only [goBlocksB, hc, hh, if_true]

theorem goB_heading (f : Nat) (line : Str) (rest buf : List Str) {lvl : Nat} {content : Str}
    (hc : codeFenceMatch (trimEnd line) = none)
    (hh : isHRule (trimEnd line) = false)
    (hd : headingMatch (trimEnd line) = some (lvl, content)) :
    goBlocksB (f + 1) (line :: rest) buf =
      (goBlocksB f rest []).map (fun bs =>
        flushPara buf ++ [Block.heading (min lvl 6) (parseInline content)] ++ bs) := by
  simp only [goBlocksB, hc, hh, hd, Bool.false_eq_true, if_false]

theorem goB_table (f : Nat) (line : Str) (rest buf : List Str)
    (hc : codeFenceMatch (trimEnd line) = none)
    (hh : isHRule (trimEnd line) = false)
    (hd : headingMatch (trimEnd line) = none)
    (ht : pipeTest (trimEnd line) = true) :
    goBlocksB (f + 1) (line :: rest) buf =
      (goBlocksB f ((line :: rest).dropWhile (fun l => pipeTest (trimEnd l))) []).map
        (fun bs => flushPara buf ++
          [parseTableBlock ((line :: rest).takeWhile (fun l => pipeTest (trimEnd l)))] ++ bs) := by
  simp only [goBlocksB, hc, hh, hd, ht, Bool.false_eq_true, if_false, if_true]

theorem goB_bullet (f : Nat) (line : Str) (rest buf : List Str) {t : Str}
    (hc : codeFenceMatch (trimEnd line) = none)
    (hh : isHRule (trimEnd line) = false)
    (hd : headingMatch (trimEnd line) = none)
    (ht : pipeTest (trimEnd line) = false)
    (hb : bulletMatchB line = some t) :
    goBlocksB (f + 1) (line :: rest) buf =
      (goBlocksB f ((line :: rest).dropWhile (fun l => (bulletMatchB l).isSome)) []).map
        (fun bs => flushPara buf ++
          [Block.bulletList (((line :: rest).takeWhile (fun l => (bulletMatchB l).isSome)).map
            (fun l => [Block.paragraph (parseInline ((bulletMatchB l).getD []))]))] ++ bs) := by
  simp only [goBlocksB, hc, hh, hd, ht, hb, Bool.false_eq_true, if_false]

theorem goB_ordered (f : Nat) (line : Str) (rest buf : List Str) {t : Str}
    (hc : codeFenceMatch (trimEnd line) = none)
    (hh : isHRule (trimEnd line) = false)
    (hd : headingMatch (trimEnd line) = none)
    (ht : pipeTest (trimEnd line) = false)
    (hb : bulletMatchB line = none)
    (ho : orderedMatch line = some t) :
    goBlocksB (f + 1) (line :: rest) buf =
      (goBlocksB f ((line :: rest).dropWhile (fun l => (orderedMatch l).isSome)) []).map
        (fun bs => flushPara buf ++
          [Block.orderedList (((line :: rest).takeWhile (fun l => (orderedMatch l).isSome)).map
            (fun l => [Block.paragraph (parseInline ((orderedMatch l).getD []))]))] ++ bs) := by
  simp only [goBlocksB, hc, hh, hd, ht, hb, ho, Bool.false_eq_true, if_false]

theorem goB_blank (f : Nat) (line : Str) (rest buf : List Str)
    (hc : codeFenceMatch (trimEnd line) = none)
    (hh : isHRule (trimEnd line) = false)
    (hd : headingMatch (trimEnd line) = none)
    (ht : pipeTest (trimEnd line) = false)
    (hb : bulletMatchB line = none)
    (ho : orderedMatch line = none)
    (hbl : (trimEnd line).isEmpty = true) :
    goBlocksB (f + 1) (line :: rest) buf =
      (goBlocksB f rest []).map (fun bs => flushPara buf ++ bs) := by
  simp only [goBlocksB, hc, hh, hd, ht, hb, ho, hbl, Bool.false_eq_true, if_false, if_true]

theorem goB_para (f : Nat) (line : Str) (rest buf : List Str)
    (hc : codeFenceMatch (trimEnd line) = none)
    (hh : isHRule (trimEnd line) = false)
    (hd : headingMatch (trimEnd line) = none)
    (ht : pipeTest (trimEnd line) = false)
    (hb : bulletMatchB line = none)
    (ho : orderedMatch line = none)
    (hbl : (trimEnd line).isEmpty = false) :
    goBlocksB (f + 1) (line :: rest) buf =
      goBlocksB f rest (buf ++ [trimEnd line]) := by
  simp only [goBlocksB, hc, hh, hd, ht, hb, ho, hbl, Bool.false_eq_true, if_false]

-- ---------------------------------------------------------------------------
-- Fuel adequacy: the measure argument behind the blockquote recursion
-- ---------------------------------------------------------------------------

theorem isSome_map {α β : Type} (g : α → β) (o : Option α) :
    (o.map g).isSome = o.isSome := by cases o <;> rfl

/-- Stripping the quote markers makes the line list strictly smaller in the
    `linesFuel` measure: this is the well-foundedness of the source's
    recursion into blockquote content. -/
theorem linesFuel_strip : ∀ (qls : List Str), qls ≠ [] →
    (∀ l ∈ qls, quoteTest (trimEnd l) = true) →
    linesFuel (qls.map stripQuote) + 1 ≤ linesFuel qls := by
  intro qls
  induction qls with
  | nil => intro h; exact absurd rfl h
  | cons l rest ih =>
    intro _ hq
    have hl := stripQuote_length (hq l (List.mem_cons_self l rest))
    rcases rest with _ | ⟨l2, rest2⟩
    · simp only [List.map_cons, List.map_nil, linesFuel_cons]
      have : linesFuel ([] : List Str) = 1 := rfl
      omega
    · have hrest := ih (by simp)
        (fun x hx => hq x (List.mem_cons_of_mem l hx))
      simp only [List.map_cons, linesFuel_cons] at *
      omega

theorem goA_isSome : ∀ (fuel : Nat) (ls buf : List Str),
    (∀ l ∈ ls, ('\n' : Char) ∉ l) → linesFuel ls ≤ fuel →
    (goBlocksA fuel ls buf).isSome = true := by
  intro fuel
  induction fuel with
  | zero =>
    intro ls buf _ hf
    have := linesFuel_pos ls
    omega
  | succ f ih =>
    intro ls buf hnl hf
    rcases ls with _ | ⟨line, rest⟩
    · rw [goA_nil]; rfl
    · have hmemr : ∀ l ∈ rest, ('\n' : Char) ∉ l :=
        fun l hl => hnl l (List.mem_cons_of_mem line hl)
      have hfr : linesFuel rest ≤ f := by
        rw [linesFuel_cons] at hf; omega
      cases hc : codeFenceMatch (trimEnd line) with
      | some lang =>
        rw [goA_fence f line rest buf hc, isSome_map]
        have hsub : ((rest.dropWhile (fun l => !(hasPfx fence3 (trimEnd l)))).drop 1).Sublist rest :=
          (List.drop_sublist 1 _).trans (List.dropWhile_sublist _)
        exact ih _ [] (fun l hl => hmemr l (hsub.subset hl))
          (le_trans (linesFuel_le_of_sublist hsub) hfr)
      | none =>
      by_cases hh : isHRule (trimEnd line) = true
      · rw [goA_hrule f line rest buf hc hh, isSome_map]
        exact ih _ [] hmemr hfr
      · rw [Bool.not_eq_true] at hh
        cases hd : headingMatch (trimEnd line) with
        | some p =>
          obtain ⟨lvl, content⟩ := p
          rw [goA_heading f line rest buf hc hh hd, isSome_map]
          exact ih _ [] hmemr hfr
        | none =>
        by_cases hq : quoteTest (trimEnd line) = true
        · -- blockquote: recursion into the dedented, strictly shorter text
          rw [goA_quote f line rest buf hc hh hd hq]
          have hqls : (line :: rest).takeWhile (fun l => quoteTest (trimEnd l)) =
              line :: rest.takeWhile (fun l => quoteTest (trimEnd l)) := by
            rw [List.takeWhile_cons, if_pos hq]
          have hqlsSub : ((line :: rest).takeWhile
              (fun l => quoteTest (trimEnd l))).Sublist (line :: rest) :=
            List.takeWhile_sublist _
          have hqmem : ∀ l ∈ (line :: rest).takeWhile (fun l => quoteTest (trimEnd l)),
              quoteTest (trimEnd l) = true :=
            fun l hl => List.mem_takeWhile_imp (p := fun l => quoteTest (trimEnd l)) hl
          have hqne : (line :: rest).takeWhile (fun l => quoteTest (trimEnd l)) ≠ [] := by
            rw [hqls]; simp
          have hstrip := linesFuel_strip _ hqne hqmem
          have hqfuel : linesFuel ((line :: rest).takeWhile
              (fun l => quoteTest (trimEnd l))) ≤ f + 1 :=
            le_trans (linesFuel_le_of_sublist hqlsSub) hf
          have hsplitNoNl : ∀ l ∈ splitOnNl (joinNl
              (((line :: rest).takeWhile (fun l => quoteTest (trimEnd l))).map stripQuote)),
              ('\n' : Char) ∉ l :=
            fun l hl => splitOnChar_not_mem '\n' _ l hl
          have hjoin : splitOnNl (joinNl
              (((line :: rest).takeWhile (fun l => quoteTest (trimEnd l))).map stripQuote)) =
              ((line :: rest).takeWhile (fun l => quoteTest (trimEnd l))).map stripQuote := by
            refine splitOnNl_join _ (by simpa using hqne) ?_
            intro l hl
            rw [List.mem_map] at hl
            obtain ⟨x, hx, rfl⟩ := hl
            intro hmem
            exact hnl x (hqlsSub.subset hx) (stripQuote_subset _ hmem)
          have hinner : (goBlocksA f (splitOnNl (joinNl
              (((line :: rest).takeWhile (fun l => quoteTest (trimEnd l))).map stripQuote))) []).isSome = true := by
            apply ih _ [] hsplitNoNl
            rw [hjoin]
            omega
          have hafterEq : (line :: rest).dropWhile (fun l => quoteTest (trimEnd l)) =
              rest.dropWhile (fun l => quoteTest (trimEnd l)) := by
            rw [List.dropWhile_cons, if_pos hq]
          have hafter : (goBlocksA f ((line :: rest).dropWhile
              (fun l => quoteTest (trimEnd l))) []).isSome = true := by
            rw [hafterEq]
            exact ih _ []
              (fun l hl => hmemr l ((List.dropWhile_sublist _).subset hl))
              (le_trans (linesFuel_le_of_sublist (List.dropWhile_sublist _)) hfr)
          obtain ⟨ibs, hibs⟩ := Option.isSome_iff_exists.mp hinner
          obtain ⟨bs, hbs⟩ := Option.isSome_iff_exists.mp hafter
          rw [hibs, hbs]
          rfl
        · rw [Bool.not_eq_true] at hq
          by_cases ht : (pipeTest (trimEnd line) &&
              sepTest (trimBoth (rest.headD []))) = true
          · rw [goA_table f line rest buf hc hh hd hq ht, isSome_map]
            have hp : pipeTest (trimEnd line) = true := by
              simp only [Bool.and_eq_true] at ht; exact ht.1
            have hafterEq : (line :: rest).dropWhile (fun l => pipeTest (trimEnd l)) =
                rest.dropWhile (fun l => pipeTest (trimEnd l)) := by
              rw [List.dropWhile_cons, if_pos hp]
            rw [hafterEq]
            exact ih _ []
              (fun l hl => hmemr l ((List.dropWhile_sublist _).subset hl))
              (le_trans (linesFuel_le_of_sublist (List.dropWhile_sublist _)) hfr)
          · rw [Bool.not_eq_true] at ht
            cases hb : bulletMatchA line with
            | some t =>
              rw [goA_bullet f line rest buf hc hh hd hq ht hb, isSome_map]
              have hp : (bulletMatchA line).isSome = true := by rw [hb]; rfl
              have hafterEq : (line :: rest).dropWhile (fun l => (bulletMatchA l).isSome) =
                  rest.dropWhile (fun l => (bulletMatchA l).isSome) := by
                rw [List.dropWhile_cons, if_pos hp]
              rw [hafterEq]
              exact ih _ []
                (fun l hl => hmemr l ((List.dropWhile_sublist _).subset hl))
                (le_trans (linesFuel_le_of_sublist (List.dropWhile_sublist _)) hfr)
            | none =>
            cases ho : orderedMatch line with
            | some t =>
              rw [goA_ordered f line rest buf hc hh hd hq ht hb ho, isSome_map]
              have hp : (orderedMatch line).isSome = true := by rw [ho]; rfl
              have hafterEq : (line :: rest).dropWhile (fun l => (orderedMatch l).isSome) =
                  rest.dropWhile (fun l => (orderedMatch l).isSome) := by
                rw [List.dropWhile_cons, if_pos hp]
              rw [hafterEq]
              exact ih _ []
                (fun l hl => hmemr l ((List.dropWhile_sublist _).subset hl))
                (le_trans (linesFuel_le_of_sublist (List.dropWhile_sublist _)) hfr)
            | none =>
            by_cases hbl : (trimEnd line).isEmpty = true
            · rw [goA_blank f line rest buf hc hh hd hq ht hb ho hbl, isSome_map]
              exact ih _ [] hmemr hfr
            · rw [Bool.not_eq_true] at hbl
              rw [goA_para f line rest buf hc hh hd hq ht hb ho hbl]
              exact ih _ _ hmemr hfr

/-- The top-level computation always succeeds within its fuel budget. -/
theorem markdownToAdf_eq_opt (md : Str) :
    ∃ bs, goBlocksA (linesFuel (splitOnNl md)) (splitOnNl md) [] = some bs ∧
      markdownToAdf md = ⟨1, docContent bs⟩ ∧
      markdownToAdfOpt md = some ⟨1, docContent bs⟩ := by
  have h := goA_isSome (linesFuel (splitOnNl md)) (splitOnNl md) []
    (fun l hl => splitOnChar_not_mem '\n' md l hl) (le_refl _)
  obtain ⟨bs, hbs⟩ := Option.isSome_iff_exists.mp h
  refine ⟨bs, hbs, ?_, ?_⟩
  · rw [markdownToAdf, hbs]; rfl
  · rw [markdownToAdfOpt, hbs]; rfl

-- ---------------------------------------------------------------------------
-- Claims
-- ---------------------------------------------------------------------------

/-- Claim C1: for every input string, the Document returned by
    `markdownToAdf` has a non-empty `content` sequence — when the block scan
    yields no blocks, a single paragraph holding one empty text node is
    substituted, so the content list is never `[]`. -/
theorem C1_content_nonempty (md : Str) : (markdownToAdf md).content ≠ [] := by
  rw [markdownToAdf]
  exact docContent_ne_nil _

/-- Claim C2: `markdownToAdf` terminates and returns a well-formed Document
    for every input, nested blockquotes included: the fuel-based scan
    `markdownToAdfOpt` (whose fuel is consumed by every loop step and by the
    recursion into the strictly shorter dedented blockquote text, cf.
    `linesFuel_strip`) never exhausts its budget, and the resulting
    document's content is non-empty. -/
theorem C2_total (md : Str) :
    ∃ d, markdownToAdfOpt md = some d ∧ markdownToAdf md = d ∧ d.content ≠ [] := by
  obtain ⟨bs, _, hmd, hopt⟩ := markdownToAdf_eq_opt md
  exact ⟨⟨1, docContent bs⟩, hopt, hmd, docContent_ne_nil bs⟩

-- ---------------------------------------------------------------------------
-- All-whitespace inputs (claim C4)
-- ---------------------------------------------------------------------------

theorem bulletMatchA_of_wsLine {line : Str} (h : line.dropWhile isJsWs = []) :
    bulletMatchA line = none := by
  unfold bulletMatchA
  rw [h]

theorem orderedMatch_of_wsLine {line : Str} (h : line.dropWhile isJsWs = []) :
    orderedMatch line = none := by
  unfold orderedMatch
  rw [h]
  rfl

theorem length_lt_linesFuel (ls : List Str) : ls.length < linesFuel ls := by
  induction ls with
  | nil => exact Nat.zero_lt_one
  | cons l rest ih => rw [linesFuel_cons, List.length_cons]; omega

/-- On a line list whose every character is whitespace, the scanner
    recognizes no construct and emits no block. -/
theorem goA_allWs : ∀ (f : Nat) (ls : List Str),
    (∀ l ∈ ls, ∀ c ∈ l, isJsWs c = true) → ls.length < f →
    goBlocksA f ls [] = some [] := by
  intro f
  induction f with
  | zero => intro ls _ h; omega
  | succ f ih =>
    intro ls hws hlen
    rcases ls with _ | ⟨line, rest⟩
    · rw [goA_nil]; rfl
    · have hline : ∀ c ∈ line, isJsWs c = true := hws line (List.mem_cons_self _ _)
      have htr : trimEnd line = [] := trimEnd_of_allWs hline
      have hdw : line.dropWhile isJsWs = [] := by
        rw [List.dropWhile_eq_nil_iff]
        exact hline
      rw [goA_blank f line rest [] (by rw [htr]; rfl) (by rw [htr]; rfl)
        (by rw [htr]; rfl) (by rw [htr]; rfl) (by rw [htr]; rfl)
        (bulletMatchA_of_wsLine hdw) (orderedMatch_of_wsLine hdw)
        (by rw [htr]; rfl)]
      rw [ih rest (fun l hl => hws l (List.mem_cons_of_mem line hl))
        (by rw [List.length_cons] at hlen; omega)]
      rfl

/-- Claim C4: `markdownToAdf ""` is exactly one empty paragraph holding one
    empty text node, and the same Document results from every all-whitespace
    input (on such input no block construct is ever recognized). -/
theorem C4_empty_input :
    markdownToAdf (str "") = ⟨1, [Block.paragraph [Inline.text [] []]]⟩ ∧
    ∀ md : Str, (∀ c ∈ md, isJsWs c = true) →
      markdownToAdf md = ⟨1, [Block.paragraph [Inline.text [] []]]⟩ := by
  refine ⟨rfl, ?_⟩
  intro md hws
  have hls : ∀ l ∈ splitOnNl md, ∀ c ∈ l, isJsWs c = true :=
    fun l hl c hc => hws c (splitOnChar_chars_mem '\n' md l hl c hc)
  rw [markdownToAdf, goA_allWs _ _ hls (length_lt_linesFuel _)]
  rfl

/-- Witness for C4 at the concrete all-whitespace input `" \t "`. -/
theorem C4_empty_input_witness :
    (∀ c ∈ str " \t ", isJsWs c = true) ∧
    markdownToAdf (str " \t ") = ⟨1, [Block.paragraph [Inline.text [] []]]⟩ :=
  ⟨by decide, C4_empty_input.2 (str " \t ") (by decide)⟩

-- ---------------------------------------------------------------------------
-- Inline precedence (claim C5) and fenced code (claim C6)
-- ---------------------------------------------------------------------------

/-- Claim C5: `"**bold** and *italic*"` becomes one paragraph with text
    nodes `"bold"` (strong), `" and "` (unmarked), `"italic"` (em); and at
    any scan position where both could match, the bold alternative is taken
    in preference to the single-asterisk italic alternative. -/
theorem C5_bold_precedes_italic :
    markdownToAdf (str "**bold** and *italic*") =
      ⟨1, [Block.paragraph [Inline.text (str "bold") [Mark.strong],
        Inline.text (str " and ") [], Inline.text (str "italic") [Mark.em]]]⟩ ∧
    ∀ (s : Str) (b i : Inline × Str), matchBold s = some b → matchStar s = some i →
      tryInline s = some b := by
  refine ⟨rfl, ?_⟩
  intro s b i hb _
  simp only [tryInline, hb]

/-- Witness for C5: at `"**x**"` both the bold and the italic alternatives
    match, and the scanner takes the bold one. -/
theorem C5_bold_precedes_italic_witness :
    tryInline (str "**x**") = some (Inline.text (str "x") [Mark.strong], []) :=
  C5_bold_precedes_italic.2 (str "**x**")
    (Inline.text (str "x") [Mark.strong], [])
    (Inline.text (str "*x") [Mark.em], str "*") rfl rfl

theorem takeWhile_append_all {α : Type} {p : α → Bool} {xs : List α} (ys : List α)
    (h : ∀ x ∈ xs, p x = true) :
    (xs ++ ys).takeWhile p = xs ++ ys.takeWhile p := by
  induction xs with
  | nil => rfl
  | cons a l ih =>
    rw [List.cons_append, List.takeWhile_cons, if_pos (h a (List.mem_cons_self a l)),
      ih (fun x hx => h x (List.mem_cons_of_mem a hx)), List.cons_append]

theorem dropWhile_append_all {α : Type} {p : α → Bool} {xs : List α} (ys : List α)
    (h : ∀ x ∈ xs, p x = true) :
    (xs ++ ys).dropWhile p = ys.dropWhile p := by
  induction xs with
  | nil => rfl
  | cons a l ih =>
    rw [List.cons_append, List.dropWhile_cons, if_pos (h a (List.mem_cons_self a l)),
      ih (fun x hx => h x (List.mem_cons_of_mem a hx))]

theorem goA_nil' {f : Nat} (h : 1 ≤ f) (buf : List Str) :
    goBlocksA f [] buf = some (flushPara buf) := by
  rcases f with _ | f
  · omega
  · rfl

/-- Claim C6: a fenced block with language tag yields a single CodeBlock
    whose body is captured verbatim — concretely for `"```js\ncode\n```"`
    and `"```\n*x*\n```"` (no inline processing of `*`), and in general for
    any non-empty body whose lines contain no newline and are not closing
    fences. -/
theorem C6_fenced_code :
    markdownToAdf (str "```js\ncode\n```") =
      ⟨1, [Block.codeBlock (some (str "js")) [Inline.text (str "code") []]]⟩ ∧
    markdownToAdf (str "```\n*x*\n```") =
      ⟨1, [Block.codeBlock none [Inline.text (str "*x*") []]]⟩ ∧
    ∀ body : List Str, body ≠ [] →
      (∀ l ∈ body, ('\n' : Char) ∉ l ∧ hasPfx fence3 (trimEnd l) = false) →
      markdownToAdf (joinNl (str "```js" :: (body ++ [str "```"]))) =
        ⟨1, [Block.codeBlock (some (str "js")) [Inline.text (joinNl body) []]]⟩ := by
  refine ⟨rfl, rfl, ?_⟩
  intro body hne hmem
  have hsplit : splitOnNl (joinNl (str "```js" :: (body ++ [str "```"]))) =
      str "```js" :: (body ++ [str "```"]) := by
    refine splitOnNl_join _ (by simp) ?_
    intro l hl
    rcases List.mem_cons.mp hl with rfl | hl
    · decide
    · rcases List.mem_append.mp hl with h | h
      · exact (hmem l h).1
      · simp only [List.mem_singleton] at h; subst h; decide
  rw [markdownToAdf, hsplit]
  have hlen5 : (str "```js").length = 5 := rfl
  have hfuel : linesFuel (str "```js" :: (body ++ [str "```"])) =
      (6 + linesFuel (body ++ [str "```"])) + 1 := by
    rw [linesFuel_cons]; omega
  rw [hfuel]
  rw [goA_fence _ _ _ _ (by rfl : codeFenceMatch (trimEnd (str "```js")) = some (str "js"))]
  have hall : ∀ x ∈ body, (fun l => !(hasPfx fence3 (trimEnd l))) x = true := by
    intro x hx
    have := (hmem x hx).2
    simp only [this]
    rfl
  rw [takeWhile_append_all _ hall, dropWhile_append_all _ hall]
  rw [show List.takeWhile (fun l => !(hasPfx fence3 (trimEnd l))) [str "```"] = [] by decide]
  rw [show List.dropWhile (fun l => !(hasPfx fence3 (trimEnd l))) [str "```"] = [str "```"] by decide]
  rw [show ([str "```"].drop 1) = ([] : List Str) by rfl]
  rw [goA_nil' (by omega) []]
  rw [List.append_nil]
  rfl

/-- Witness for C6 at the one-line body `["code"]`. -/
theorem C6_fenced_code_witness :
    markdownToAdf (joinNl [str "```js", str "code", str "```"]) =
      ⟨1, [Block.codeBlock (some (str "js")) [Inline.text (joinNl [str "code"]) []]]⟩ :=
  C6_fenced_code.2.2 [str "code"] (by decide) (by decide)

-- ---------------------------------------------------------------------------
-- Tables (claims C7 and C8)
-- ---------------------------------------------------------------------------

/-- Claim C7: the header/separator/data table yields one header row and one
    body row; in general every separator line contributes zero rows
    (the row count equals the number of non-separator lines) and the line at
    index 0 of the run is the one whose cells are tagged as header. -/
theorem C7_table :
    markdownToAdf (str "| A | B |\n|---|---|\n| 1 | 2 |") =
      ⟨1, [Block.table
        [[(true, [Block.paragraph [Inline.text (str "A") []]]),
          (true, [Block.paragraph [Inline.text (str "B") []]])],
         [(false, [Block.paragraph [Inline.text (str "1") []]]),
          (false, [Block.paragraph [Inline.text (str "2") []]])]]]⟩ ∧
    (∀ (i : Nat) (ls : List Str), (tableRows i ls).length =
      (ls.filter (fun l => !(sepTest (trimBoth l)))).length) ∧
    ∀ (l : Str) (ls : List Str), sepTest (trimBoth l) = false →
      tableRows 0 (l :: ls) = rowCells true l :: tableRows 1 ls := by
  refine ⟨rfl, ?_, ?_⟩
  · intro i ls
    induction ls generalizing i with
    | nil => rfl
    | cons l rest ih =>
      rw [tableRows, List.filter_cons]
      by_cases h : sepTest (trimBoth l) = true
      · rw [if_pos h, h]
        simp only [Bool.not_true, Bool.false_eq_true, if_false]
        exact ih (i + 1)
      · have h' : sepTest (trimBoth l) = false := by
          rw [Bool.not_eq_true] at h; exact h
        rw [if_neg h, h']
        simp only [Bool.not_false, if_true, List.length_cons]
        rw [ih (i + 1)]
  · intro l ls h
    rw [tableRows, if_neg (by rw [h]; exact Bool.false_ne_true)]
    rfl

/-- Witness for C7's header-tagging part at a concrete non-separator line. -/
theorem C7_table_witness :
    sepTest (trimBoth (str "| A |")) = false ∧
    tableRows 0 [str "| A |"] = rowCells true (str "| A |") :: tableRows 1 [] :=
  ⟨by decide, C7_table.2.2 (str "| A |") [] (by decide)⟩

theorem pipeTest_head {s : Str} (h : pipeTest s = true) : ∃ r, s = '|' :: r := by
  rcases s with _ | ⟨c, r⟩
  · exact absurd h (by rw [pipeTest]; exact Bool.false_ne_true)
  · refine ⟨r, ?_⟩
    rw [pipeTest, Bool.and_eq_true, beq_iff_eq] at h
    rw [h.1]

theorem trimEnd_idem (l : Str) : trimEnd (trimEnd l) = trimEnd l := by
  induction l with
  | nil => rfl
  | cons c rest ih =>
    rw [trimEnd]
    rcases htr : trimEnd rest with _ | ⟨e, s⟩
    · by_cases hw : isJsWs c = true
      · rw [if_pos hw]; rfl
      · rw [if_neg hw, trimEnd, trimEnd]
        rw [if_neg hw]
    · rw [htr] at ih
      rw [trimEnd, ih]

theorem flushPara_cons_not_ws {c : Char} {r : Str} (h : isJsWs c = false) :
    flushPara [c :: r] = [Block.paragraph (parseInline (c :: r))] := by
  rw [flushPara.eq_def]
  dsimp only
  have hjoin : joinNl [c :: r] = c :: r := rfl
  rw [hjoin]
  have hne : (trimBoth (c :: r)).isEmpty = false := by
    rw [trimBoth, trimEnd]
    rcases htr : trimEnd r with _ | ⟨e, s⟩
    · rw [if_neg (by rw [h]; exact Bool.false_ne_true)]
      rw [List.dropWhile_cons, if_neg (by rw [h]; exact Bool.false_ne_true)]
      rfl
    · rw [List.dropWhile_cons, if_neg (by rw [h]; exact Bool.false_ne_true)]
      rfl
  rw [hne]
  rfl

/-- Claim C8: a pipe-delimited line not followed by a separator row is not a
    table: concretely for the single-line input `"| A | B |"`, and in
    general a one-line input matching the table-line pattern (there is no
    following separator line) becomes a paragraph holding the line's text. -/
theorem C8_pipe_without_sep :
    markdownToAdf (str "| A | B |") =
      ⟨1, [Block.paragraph [Inline.text (str "| A | B |") []]]⟩ ∧
    ∀ line : Str, ('\n' : Char) ∉ line → pipeTest (trimEnd line) = true →
      markdownToAdf line = ⟨1, [Block.paragraph (parseInline (trimEnd line))]⟩ := by
  refine ⟨rfl, ?_⟩
  intro line hnl hp
  obtain ⟨r, hr⟩ := pipeTest_head hp
  obtain ⟨lr, hlr⟩ := trimEnd_eq_cons hr
  have hsplit : splitOnNl line = [line] := splitOnNl_of_not_mem hnl
  rw [markdownToAdf, hsplit]
  have hfe : linesFuel [line] = (line.length + 2) + 1 := by
    rw [linesFuel_cons]; rfl
  rw [hfe]
  rw [goA_para _ _ _ _ (by rw [hr]; rfl) (by rw [hr]; rfl) (by rw [hr]; rfl)
    (by rw [hr]; rfl) (by rw [hp]; rfl)
    (by rw [hlr]; rfl) (by rw [hlr]; rfl) (by rw [hr]; rfl)]
  rw [goA_nil' (by omega) _]
  have hpipe_not_ws : isJsWs '|' = false := rfl
  rw [List.nil_append, hr, flushPara_cons_not_ws hpipe_not_ws, ← hr]
  rfl

/-- Witness for C8's general part at the concrete line `"| A | B |"`. -/
theorem C8_pipe_without_sep_witness :
    (('\n' : Char) ∉ str "| A | B |") ∧
    markdownToAdf (str "| A | B |") =
      ⟨1, [Block.paragraph (parseInline (trimEnd (str "| A | B |")))]⟩ :=
  ⟨by decide, C8_pipe_without_sep.2 (str "| A | B |") (by decide) (by decide)⟩

-- ---------------------------------------------------------------------------
-- Horizontal rules (claim C9)
-- ---------------------------------------------------------------------------

/-- Counterexample to C9 as stated: a rule line padded with LEADING
    whitespace is not recognized (the pattern is anchored at the line
    start); `"  ---"` yields a paragraph, not a Rule. -/
theorem C9_leading_ws_cex :
    markdownToAdf (str "  ---") =
      ⟨1, [Block.paragraph [Inline.text (str "  ---") []]]⟩ ∧
    markdownToAdf (str "  ---") ≠ ⟨1, [Block.rule]⟩ := by
  refine ⟨rfl, ?_⟩
  intro h
  rw [show markdownToAdf (str "  ---") =
    ⟨1, [Block.paragraph [Inline.text (str "  ---") []]]⟩ from rfl] at h
  simp at h

theorem takeWhile_replicate_self (c : Char) (n : Nat) :
    (List.replicate n c).takeWhile (fun x => x == c) = List.replicate n c := by
  induction n with
  | zero => rfl
  | succ m ih =>
    rw [List.replicate_succ, List.takeWhile_cons, if_pos (by simp), ih,
      ← List.replicate_succ]

theorem dropWhile_replicate_self (c : Char) (n : Nat) :
    (List.replicate n c).dropWhile (fun x => x == c) = [] := by
  induction n with
  | zero => rfl
  | succ m ih =>
    rw [List.replicate_succ, List.dropWhile_cons, if_pos (by simp), ih]

theorem trimEnd_replicate {c : Char} (n : Nat) (h : isJsWs c = false) :
    trimEnd (List.replicate n c) = List.replicate n c := by
  induction n with
  | zero => rfl
  | succ m ih =>
    rw [List.replicate_succ, trimEnd, ih]
    rcases m with _ | m
    · show (if isJsWs c = true then [] else [c]) = c :: List.replicate 0 c
      rw [if_neg (by rw [h]; exact Bool.false_ne_true)]
      rfl
    · rw [List.replicate_succ]

theorem isHRule_replicate {c : Char} {m : Nat} (hc : c = '*' ∨ c = '-' ∨ c = '_') :
    isHRule (List.replicate (m + 2 + 1) c) = true := by
  rw [List.replicate_succ, isHRule.eq_def]
  dsimp only
  have hcc : (c == '*' || c == '-' || c == '_') = true := by
    rcases hc with rfl | rfl | rfl <;> rfl
  rw [hcc, if_pos rfl, ← List.replicate_succ, takeWhile_replicate_self,
    dropWhile_replicate_self]
  simp [List.length_replicate]

/-- Claim C9 amended: a single line of at least three repetitions of one of
    `*`, `-`, `_`, padded with TRAILING whitespace only, yields a Document
    whose content is a single Rule block (leading padding instead falls
    through to paragraph treatment, cf. the counterexample). -/
theorem C9_hrule_trailing_ws (c : Char) (n : Nat) (w : Str)
    (hc : c = '*' ∨ c = '-' ∨ c = '_') (hn : 3 ≤ n)
    (hw : ∀ x ∈ w, isJsWs x = true ∧ x ≠ '\n') :
    markdownToAdf (List.replicate n c ++ w) = ⟨1, [Block.rule]⟩ := by
  obtain ⟨m, rfl⟩ : ∃ m, n = m + 2 + 1 := ⟨n - 3, by omega⟩
  have hcw : isJsWs c = false := by rcases hc with rfl | rfl | rfl <;> rfl
  have hcnl : ¬ c = '\n' := by rcases hc with rfl | rfl | rfl <;> decide
  have hnl : ('\n' : Char) ∉ List.replicate (m + 2 + 1) c ++ w := by
    rw [List.mem_append]
    rintro (h | h)
    · exact hcnl (List.eq_of_mem_replicate h).symm
    · exact (hw '\n' h).2 rfl
  have htr : trimEnd (List.replicate (m + 2 + 1) c ++ w) =
      List.replicate (m + 2 + 1) c := by
    rw [trimEnd_append_ws _ (fun x hx => (hw x hx).1), trimEnd_replicate _ hcw]
  have hsplit : splitOnNl (List.replicate (m + 2 + 1) c ++ w) =
      [List.replicate (m + 2 + 1) c ++ w] := splitOnNl_of_not_mem hnl
  rw [markdownToAdf, hsplit]
  have hfe : linesFuel [List.replicate (m + 2 + 1) c ++ w] =
      ((List.replicate (m + 2 + 1) c ++ w).length + 2) + 1 := by
    rw [linesFuel_cons]; rfl
  rw [hfe]
  have hcf : codeFenceMatch (trimEnd (List.replicate (m + 2 + 1) c ++ w)) = none := by
    rw [htr, List.replicate_succ]
    rcases hc with rfl | rfl | rfl <;> rfl
  rw [goA_hrule _ _ _ _ hcf (by rw [htr]; exact isHRule_replicate hc)]
  rw [goA_nil' (by omega) _]
  rfl

/-- Witness for the amended C9 at `"--- "` (three dashes, one trailing space). -/
theorem C9_hrule_trailing_ws_witness :
    markdownToAdf (List.replicate 3 '-' ++ str " ") = ⟨1, [Block.rule]⟩ :=
  C9_hrule_trailing_ws '-' 3 (str " ") (Or.inr (Or.inl rfl)) (by omega) (by decide)

-- ---------------------------------------------------------------------------
-- Unbounded blockquote nesting (claim C3)
-- ---------------------------------------------------------------------------

theorem qn_succ (k : Nat) : qn (k + 1) = '>' :: qn k := by
  rw [qn, List.replicate_succ, List.cons_append]
  exact rfl

theorem qn_ne_nil (k : Nat) : qn k ≠ [] := by
  rw [qn]; simp

theorem qn_no_nl (k : Nat) : ('\n' : Char) ∉ qn k := by
  rw [qn, List.mem_append]
  rintro (h | h)
  · exact absurd (List.eq_of_mem_replicate h) (by decide)
  · exact absurd (List.mem_singleton.mp h) (by decide)

theorem qn_len (k : Nat) : (qn k).length = k + 1 := by
  rw [qn]; simp

theorem trimEnd_qn (k : Nat) : trimEnd (qn k) = qn k := by
  induction k with
  | zero => rfl
  | succ m ih =>
    rw [qn_succ, trimEnd, ih]
    rcases hq : qn m with _ | ⟨c, t⟩
    · exact absurd hq (qn_ne_nil m)
    · rfl

theorem stripQuote_qn (k : Nat) : stripQuote (qn (k + 1)) = qn k := by
  rw [qn_succ, stripQuote.eq_def]
  rcases k with _ | k
  · rfl
  · rw [qn_succ]
    rfl

/-- Claim C3 (evidence of the missing guard): there is no maximum nesting
    depth — at EVERY depth the converter returns an ordinary Document
    wrapping one more blockquote around the conversion of the next level;
    no error condition exists anywhere in its return type. -/
theorem C3_no_nesting_guard (n : Nat) :
    markdownToAdf (qn (n + 1)) =
      ⟨1, [Block.blockquote (markdownToAdf (qn n)).content]⟩ := by
  obtain ⟨bs, hbs, hmd, _⟩ := markdownToAdf_eq_opt (qn n)
  have hsplitn : splitOnNl (qn n) = [qn n] := splitOnNl_of_not_mem (qn_no_nl n)
  have hemp : linesFuel ([] : List Str) = 1 := rfl
  have hfn : linesFuel [qn n] = n + 4 := by
    rw [linesFuel_cons, qn_len]; omega
  rw [hsplitn, hfn] at hbs
  have hsplit1 : splitOnNl (qn (n + 1)) = [qn (n + 1)] :=
    splitOnNl_of_not_mem (qn_no_nl (n + 1))
  rw [markdownToAdf, hsplit1]
  have hf1 : linesFuel [qn (n + 1)] = (n + 4) + 1 := by
    rw [linesFuel_cons, qn_len]; omega
  rw [hf1]
  have htr := trimEnd_qn (n + 1)
  rw [goA_quote _ _ _ _ (by rw [htr, qn_succ]; rfl) (by rw [htr, qn_succ]; rfl)
    (by rw [htr, qn_succ]; rfl) (by rw [htr, qn_succ]; rfl)]
  have hpred : (quoteTest (trimEnd (qn (n + 1)))) = true := by
    rw [htr, qn_succ]; rfl
  rw [List.takeWhile_cons, if_pos hpred, List.dropWhile_cons, if_pos hpred]
  rw [show List.takeWhile (fun l => quoteTest (trimEnd l)) ([] : List Str) = [] from rfl]
  rw [show List.dropWhile (fun l => quoteTest (trimEnd l)) ([] : List Str) = [] from rfl]
  rw [List.map_cons, List.map_nil, stripQuote_qn]
  rw [show joinNl [qn n] = qn n from rfl]
  rw [hsplitn, hbs]
  rw [goA_nil' (by omega) []]
  rw [hmd]
  rfl

-- ---------------------------------------------------------------------------
-- Equivalence of the two converter variants (claim C10)
-- ---------------------------------------------------------------------------

theorem noBareTable_cons (l : Str) (rest : List Str) :
    noBareTable (l :: rest) =
      ((!pipeTest (trimEnd l) || sepTest (trimBoth (rest.headD []))) &&
        noBareTable rest) := rfl

theorem noBareTable_suffix : ∀ (ls t : List Str), t <:+ ls →
    noBareTable ls = true → noBareTable t = true := by
  intro ls
  induction ls with
  | nil =>
    intro t ht h
    rw [List.suffix_nil] at ht
    rw [ht]; rfl
  | cons l rest ih =>
    intro t ht h
    rcases List.suffix_cons_iff.mp ht with rfl | ht
    · exact h
    · rw [noBareTable_cons, Bool.and_eq_true] at h
      exact ih t ht h.2

theorem takeWhile_congr_mem {α : Type} {p q : α → Bool} :
    ∀ ls : List α, (∀ x ∈ ls, p x = q x) → ls.takeWhile p = ls.takeWhile q := by
  intro ls
  induction ls with
  | nil => intro _; rfl
  | cons a l ih =>
    intro h
    rw [List.takeWhile_cons, List.takeWhile_cons, h a (List.mem_cons_self a l),
      ih (fun x hx => h x (List.mem_cons_of_mem a hx))]

theorem dropWhile_congr_mem {α : Type} {p q : α → Bool} :
    ∀ ls : List α, (∀ x ∈ ls, p x = q x) → ls.dropWhile p = ls.dropWhile q := by
  intro ls
  induction ls with
  | nil => intro _; rfl
  | cons a l ih =>
    intro h
    rw [List.dropWhile_cons, List.dropWhile_cons, h a (List.mem_cons_self a l),
      ih (fun x hx => h x (List.mem_cons_of_mem a hx))]

/-- On line lists with no blockquote line, no `•`-bullet divergence and no
    pipe line lacking a following separator row, the two scanner variants
    agree at every fuel. -/
theorem goAB_eq : ∀ (fuel : Nat) (ls buf : List Str),
    (∀ l ∈ ls, quoteTest (trimEnd l) = false) →
    (∀ l ∈ ls, bulletMatchA l = bulletMatchB l) →
    noBareTable ls = true →
    goBlocksA fuel ls buf = goBlocksB fuel ls buf := by
  intro fuel
  induction fuel with
  | zero => intro ls buf _ _ _; rfl
  | succ f ih =>
    intro ls buf hq hbl hnb
    rcases ls with _ | ⟨line, rest⟩
    · rfl
    · have hqr : ∀ l ∈ rest, quoteTest (trimEnd l) = false :=
        fun l hl => hq l (List.mem_cons_of_mem _ hl)
      have hblr : ∀ l ∈ rest, bulletMatchA l = bulletMatchB l :=
        fun l hl => hbl l (List.mem_cons_of_mem _ hl)
      have hnbr : noBareTable rest = true := by
        rw [noBareTable_cons, Bool.and_eq_true] at hnb
        exact hnb.2
      -- a recursion on any suffix of rest keeps all three invariants
      have hrec : ∀ t : List Str, t <:+ rest →
          goBlocksA f t [] = goBlocksB f t [] := by
        intro t ht
        exact ih t [] (fun l hl => hqr l (ht.sublist.subset hl))
          (fun l hl => hblr l (ht.sublist.subset hl))
          (noBareTable_suffix rest t ht hnbr)
      cases hc : codeFenceMatch (trimEnd line) with
      | some lang =>
        rw [goA_fence f line rest buf hc, goB_fence f line rest buf hc]
        rw [hrec _ ((List.drop_suffix 1 _).trans (List.dropWhile_suffix _))]
      | none =>
      by_cases hh : isHRule (trimEnd line) = true
      · rw [goA_hrule f line rest buf hc hh, goB_hrule f line rest buf hc hh]
        rw [hrec rest (List.suffix_refl rest)]
      · rw [Bool.not_eq_true] at hh
        cases hd : headingMatch (trimEnd line) with
        | some p =>
          obtain ⟨lvl, content⟩ := p
          rw [goA_heading f line rest buf hc hh hd, goB_heading f line rest buf hc hh hd]
          rw [hrec rest (List.suffix_refl rest)]
        | none =>
        have hqline : quoteTest (trimEnd line) = false :=
          hq line (List.mem_cons_self _ _)
        by_cases hp : pipeTest (trimEnd line) = true
        · -- both variants enter the table branch: the separator row exists
          have hsep : sepTest (trimBoth (rest.headD [])) = true := by
            rw [noBareTable_cons, Bool.and_eq_true, Bool.or_eq_true] at hnb
            rcases hnb.1 with h | h
            · rw [hp] at h; exact absurd h (by decide)
            · exact h
          have ht : (pipeTest (trimEnd line) && sepTest (trimBoth (rest.headD []))) = true := by
            rw [hp, hsep]; rfl
          rw [goA_table f line rest buf hc hh hd hqline ht, goB_table f line rest buf hc hh hd hp]
          have hafter : (line :: rest).dropWhile (fun l => pipeTest (trimEnd l)) =
              rest.dropWhile (fun l => pipeTest (trimEnd l)) := by
            rw [List.dropWhile_cons, if_pos hp]
          rw [hafter, hrec _ (List.dropWhile_suffix _)]
        · rw [Bool.not_eq_true] at hp
          have hta : (pipeTest (trimEnd line) && sepTest (trimBoth (rest.headD []))) = false := by
            rw [hp]; rfl
          have hbline : bulletMatchA line = bulletMatchB line :=
            hbl line (List.mem_cons_self _ _)
          have hballs : ∀ x ∈ line :: rest,
              (fun l => (bulletMatchA l).isSome) x = (fun l => (bulletMatchB l).isSome) x :=
            fun x hx => congrArg Option.isSome (hbl x hx)
          cases hb : bulletMatchA line with
          | some t =>
            have hbB : bulletMatchB line = some t := by rw [← hbline, hb]
            rw [goA_bullet f line rest buf hc hh hd hqline hta hb,
              goB_bullet f line rest buf hc hh hd hp hbB]
            rw [takeWhile_congr_mem _ hballs, dropWhile_congr_mem _ hballs]
            have hitems : ((line :: rest).takeWhile (fun l => (bulletMatchB l).isSome)).map
                (fun l => [Block.paragraph (parseInline ((bulletMatchA l).getD []))]) =
                ((line :: rest).takeWhile (fun l => (bulletMatchB l).isSome)).map
                (fun l => [Block.paragraph (parseInline ((bulletMatchB l).getD []))]) := by
              refine List.map_congr_left ?_
              intro x hx
              rw [hbl x ((List.takeWhile_sublist _).subset hx)]
            rw [hitems]
            have hafter : (line :: rest).dropWhile (fun l => (bulletMatchB l).isSome) =
                rest.dropWhile (fun l => (bulletMatchB l).isSome) := by
              rw [List.dropWhile_cons, if_pos (by rw [hbB]; rfl)]
            rw [hafter, hrec _ (List.dropWhile_suffix _)]
          | none =>
          have hbB : bulletMatchB line = none := by rw [← hbline, hb]
          cases ho : orderedMatch line with
          | some t =>
            rw [goA_ordered f line rest buf hc hh hd hqline hta hb ho,
              goB_ordered f line rest buf hc hh hd hp hbB ho]
            have hafter : (line :: rest).dropWhile (fun l => (orderedMatch l).isSome) =
                rest.dropWhile (fun l => (orderedMatch l).isSome) := by
              rw [List.dropWhile_cons, if_pos (by rw [ho]; rfl)]
            rw [hafter, hrec _ (List.dropWhile_suffix _)]
          | none =>
          by_cases hbla : (trimEnd line).isEmpty = true
          · rw [goA_blank f line rest buf hc hh hd hqline hta hb ho hbla,
              goB_blank f line rest buf hc hh hd hp hbB ho hbla]
            rw [hrec rest (List.suffix_refl rest)]
          · rw [Bool.not_eq_true] at hbla
            rw [goA_para f line rest buf hc hh hd hqline hta hb ho hbla,
              goB_para f line rest buf hc hh hd hp hbB ho hbla]
            exact ih rest (buf ++ [trimEnd line]) hqr hblr hnbr

/-- Counterexample to C10 as stated: the input `"| A | B |"` contains no
    blockquote line, yet the blockquote-supporting variant produces a
    paragraph (no separator row follows the pipe line) while the other
    variant produces a table. -/
theorem C10_cex :
    (∀ l ∈ splitOnNl (str "| A | B |"), quoteTest (trimEnd l) = false) ∧
    markdownToAdf (str "| A | B |") ≠ markdownToAdfB (str "| A | B |") := by
  refine ⟨by decide, ?_⟩
  intro h
  rw [show markdownToAdf (str "| A | B |") =
        ⟨1, [Block.paragraph [Inline.text (str "| A | B |") []]]⟩ from rfl,
      show markdownToAdfB (str "| A | B |") =
        ⟨1, [Block.table [[(true, [Block.paragraph [Inline.text (str "A") []]]),
          (true, [Block.paragraph [Inline.text (str "B") []]])]]]⟩ from rfl] at h
  simp at h

/-- Claim C10 amended: the two near-duplicate converter variants return
    structurally identical Documents for every input containing no
    blockquote line, no `•`-marker bullet line, and no pipe-delimited line
    that lacks an immediately following separator row (on such lines the
    variants genuinely diverge, cf. the counterexample). -/
theorem C10_variants_agree (md : Str)
    (hq : ∀ l ∈ splitOnNl md, quoteTest (trimEnd l) = false)
    (hb : ∀ l ∈ splitOnNl md, bulletMatchA l = bulletMatchB l)
    (ht : noBareTable (splitOnNl md) = true) :
    markdownToAdf md = markdownToAdfB md := by
  rw [markdownToAdf, markdownToAdfB, goAB_eq _ _ _ hq hb ht]

/-- Witness for the amended C10 at the concrete input `"# hi\nworld"`. -/
theorem C10_variants_agree_witness :
    markdownToAdf (str "# hi\nworld") = markdownToAdfB (str "# hi\nworld") :=
  C10_variants_agree (str "# hi\nworld") (by decide) (by decide) (by decide)
